import Mathlib

/-!
Verification of the contraction expander/disambiguator repository
(`expander.py`, `disambiguate.py`, `utils.py`).

The Python source is shallowly embedded: dictionaries become association
lists in insertion order (Python 3 dicts preserve insertion order),
fallible code returns `Option` (a `none` models an uncaught Python
exception aborting the run), and Python string/list primitives are
reproduced by small executable helpers (`pySlice`, `setPy`, `pyLower`,
`pyCapitalize`, `pySplit`, `strContains`) that follow CPython semantics on
the ASCII data this program manipulates, including negative-index slicing.
-/

namespace Expander

/-! ## Python string and list primitives -/

/-- Python slice-index normalisation for a sequence of length `n`:
a negative index counts from the end, and the result is clamped into
`[0, n]` (CPython `slice.indices`). -/
def pyIdx (n : Nat) (i : Int) : Nat :=
  let j : Int := if i < 0 then i + n else i
  if j < 0 then 0 else if j > (n : Int) then n else j.toNat

/-- Python slice `l[a:b]` with full CPython semantics (negative indices
wrap, out-of-range bounds clamp, empty when `b ≤ a` after
normalisation). -/
def pySlice (l : List α) (a b : Int) : List α :=
  let s := pyIdx l.length a
  let e := pyIdx l.length b
  ((l.drop s).take (e - s))

/-- Python element assignment `l[i] = x`: a negative index counts from the
end; an index out of range raises `IndexError`, modelled as `none`. -/
def setPy (l : List String) (i : Int) (x : String) : Option (List String) :=
  let j : Int := if i < 0 then i + l.length else i
  if 0 ≤ j ∧ j < (l.length : Int) then some (l.set j.toNat x) else none

/-- The apostrophe character. -/
def apos : Char := Char.ofNat 39

/-- Python `word[0] == "'"` on a string (`false` on the empty string,
where Python would raise `IndexError`; theorems about arbitrary sentences
therefore assume non-empty tokens). -/
def startsWithApos (s : String) : Bool :=
  match s.data with
  | [] => false
  | c :: _ => c == apos

/-- Python `str.lower()` (ASCII case folding, which covers this program's
data). -/
def pyLower (s : String) : String := String.mk (s.data.map Char.toLower)

/-- Python `str.capitalize()`: first character upper-cased, every other
character lower-cased. -/
def pyCapitalize (s : String) : String :=
  match s.data with
  | [] => ""
  | c :: rest => String.mk (Char.toUpper c :: rest.map Char.toLower)

/-- Python `s[0].isupper()` for a string (`false` on the empty string;
the call sites only evaluate it on non-empty strings). -/
def isUpperFirst (s : String) : Bool :=
  match s.data with
  | [] => false
  | c :: _ => c.isUpper

/-- Helper for `splitChar`: splits the remaining characters at the
separator, with `acc` holding the reversed current piece. -/
def splitCharAux (sep : Char) : List Char → List Char → List String
  | [], acc => [String.mk acc.reverse]
  | c :: rest, acc =>
    if c = sep then String.mk acc.reverse :: splitCharAux sep rest []
    else splitCharAux sep rest (c :: acc)

/-- Python `str.split(sep)` for a one-character separator (empty pieces
kept, as in Python). -/
def splitChar (sep : Char) (s : String) : List String :=
  splitCharAux sep s.data []

/-- Python `str.split()` with no argument: split on whitespace runs,
dropping empty pieces (the program only applies it to space-joined
phrases, so splitting at the space character suffices). -/
def pySplit (s : String) : List String :=
  (splitChar (Char.ofNat 32) s).filter (fun w => w ≠ "")

/-- Python `' '.join(sent)`. -/
def pyJoinSpace : List String → String
  | [] => ""
  | [w] => w
  | w :: rest => w ++ " " ++ pyJoinSpace rest

/-- Infix test on character lists (helper for `strContains`). -/
def isSubAux (n : List Char) : List Char → Bool
  | [] => n.isEmpty
  | c :: t => n.isPrefixOf (c :: t) || isSubAux n t

/-- Python substring test `needle in hay`. -/
def strContains (hay needle : String) : Bool :=
  isSubAux needle.data hay.data

/-- Models the external `nltk.word_tokenize` on the space-joined expansion
phrases stored in the contraction table (the tokenizer is an external
collaborator per the spec; on such phrases it splits at spaces). -/
def wordTokenize (s : String) : List String := pySplit s

/-! ## `expander.py` -/

/-- The index list built by `_extract_contractions` before its truthiness
check: indices of tokens whose word starts with an apostrophe and whose
tag is not `POS`. -/
def contractionIndices (sent : List (String × String)) : List Nat :=
  ((sent.enum.filter (fun p => startsWithApos p.2.1 && p.2.2 != "POS")).map Prod.fst)

/-- `_extract_contractions`: returns the index list, or `None` when it is
empty (the Python function falls off the end without a `return`). -/
def extractContractions (sent : List (String × String)) : Option (List Nat) :=
  let idx := contractionIndices sent
  if idx.isEmpty then none else some idx

/-- Helper for `groupRuns`: builds the run starting at `x` and the
remaining runs. -/
def groupRunsAux (x : Nat) : List Nat → List Nat × List (List Nat)
  | [] => ([x], [])
  | y :: rest =>
    let p := groupRunsAux y rest
    if y = x + 1 then (x :: p.1, p.2) else ([x], p.1 :: p.2)

/-- `_consecutive_sub_list`: `itertools.groupby` with key `value - position`
groups exactly the maximal runs of consecutive integers (adjacent elements
stay in one group iff they differ by one). -/
def groupRuns : List Nat → List (List Nat)
  | [] => []
  | x :: rest =>
    let p := groupRunsAux x rest
    p.1 :: p.2

/-- Outcome of the table lookup inside `_extract_replacements` for one
concatenated span surface. -/
inductive Lookup3 where
  | found (exps : List String)
  /-- The `else` branch: `print("WARNING: Unknown replacement...")` then
  `continue`. -/
  | unknownSkip
  /-- Lower-cased form is a key but the surface's first character is not
  upper-case: no branch assigns `expanded`, so Python proceeds with an
  unbound (or stale, from a previous span) variable. -/
  | unassigned
  deriving DecidableEq, Repr

/-- The lookup cascade of `_extract_replacements` (lines 100-112): exact
surface first, then the lower-cased surface with capitalisation of every
candidate when the original surface starts upper-case. -/
def lookupContraction (contractions : List (String × List String)) (joined : String) : Lookup3 :=
  match List.lookup joined contractions with
  | some v => .found v
  | none =>
    match List.lookup (pyLower joined) contractions with
    | some v => if isUpperFirst joined then .found (v.map pyCapitalize) else .unassigned
    | none => .unknownSkip

/-- One step of the `_extract_replacements` loop for one consecutive run
of contraction indices. -/
inductive SpanStep where
  | yield (idxs : List Int) (contr : List String) (exps : List (List String))
  | skip
  | unbound
  deriving DecidableEq, Repr

/-- The body of the `_extract_replacements` loop for one consecutive run
`c`: prepend the head index (`consecutive[0]-1`, which may be `-1`), slice
the sentence with Python semantics, join the words, look the surface up,
and tokenize each candidate expansion. -/
def spanStep (contractions : List (String × List String))
    (sent : List (String × String)) (c : List Nat) : SpanStep :=
  let consecutive : List Int := ((c.headI : Int) - 1) :: c.map (fun n => (n : Int))
  let contr : List String :=
    (pySlice sent consecutive.headI (consecutive.getLastD 0 + 1)).map Prod.fst
  match lookupContraction contractions (String.join contr) with
  | .found v => .yield consecutive contr (v.map wordTokenize)
  | .unknownSkip => .skip
  | .unassigned => .unbound

/-- The full sequence of loop steps of `_extract_replacements`. -/
def extractReplacements (idxLst : List Nat) (sent : List (String × String))
    (contractions : List (String × List String)) : List SpanStep :=
  (groupRuns idxLst).map (spanStep contractions sent)

/-- The tuples actually yielded by `_extract_replacements` (skipped spans
yield nothing). -/
def stepYields : List SpanStep → List (List Int × List String × List (List String))
  | [] => []
  | .yield a b c :: rest => (a, b, c) :: stepYields rest
  | _ :: rest => stepYields rest

/-- Check for the unassigned-variable branch (whose behaviour is
undefined: `NameError` or reuse of a stale binding). -/
def stepIsUnbound : SpanStep → Bool
  | .unbound => true
  | _ => false

/-- `_remove_pos_tags`. -/
def removePosTags (sent : List (String × String)) : List String :=
  sent.map Prod.fst

/-- The replacement loop of `expand_contractions` (lines 187-188):
`tmp[index] = rplc_tuple[2][0][i]` for `i, index` in
`enumerate(rplc_tuple[0])`; words beyond the index list are silently
unused, a missing word is an `IndexError`. -/
def applyReplacement : List String → List Int → List String → Option (List String)
  | tmp, [], _ => some tmp
  | _, _ :: _, [] => none
  | tmp, i :: idxs, w :: ws => (setPy tmp i w).bind (fun t => applyReplacement t idxs ws)

/-- One output sentence of `expand_contractions` for one yielded tuple:
apply the single candidate positionally, or emit the `"AMBIGUOUS"`-marked
original. -/
def applyTuple (sent : List (String × String))
    (t : List Int × List String × List (List String)) : Option (List String) :=
  if t.2.2.length = 1 then applyReplacement (removePosTags sent) t.1 t.2.2.headI
  else some ("AMBIGUOUS" :: removePosTags sent)

/-- The inner `for rplc_tuple in _extract_replacements(...)` loop: one
appended output per yielded tuple, in order. -/
def outputsOf (sent : List (String × String)) :
    List (List Int × List String × List (List String)) → Option (List (List String))
  | [] => some []
  | t :: ts =>
    match applyTuple sent t, outputsOf sent ts with
    | some o, some os => some (o :: os)
    | _, _ => none

/-- `expand_contractions` restricted to one sentence: the outputs this
sentence contributes. A sentence without contraction indices contributes
its de-tagged self; otherwise one output per yielded replacement tuple.
A run through the unassigned-variable branch is undefined behaviour and
is modelled as failure. -/
def processSent (contractions : List (String × List String))
    (sent : List (String × String)) : Option (List (List String)) :=
  match extractContractions sent with
  | none => some [removePosTags sent]
  | some idx =>
    let steps := extractReplacements idx sent contractions
    if steps.any stepIsUnbound then none
    else outputsOf sent (stepYields steps)

/-- `expand_contractions` over the (already tagged) sentence list with
`is_split=True`; the contraction table is the loaded
`contractions.yaml`. -/
def expandContractions (contractions : List (String × List String)) :
    List (List (String × String)) → Option (List (List String))
  | [] => some []
  | sent :: rest =>
    match processSent contractions sent, expandContractions contractions rest with
    | some outs, some others => some (outs ++ others)
    | _, _ => none

end Expander

namespace Expander

/-! ## `disambiguate.py` -/

/-- A tuple yielded by `_contract_sentences`: the first replaced index,
the replaced words, and the contracted sentence. -/
structure ContractTuple where
  firstIndex : Nat
  replaced : List String
  contracted : List String
  deriving DecidableEq, Repr

/-- `_find_sub_list`: all `(first, last)` index pairs at which `sub`
occurs as a contiguous sublist of `full` (the code's extra check
`full_list[ind] == sublist[0]` is implied by the slice comparison for the
non-empty sublists reaching this function). -/
def findSubList (sub full : List String) : List (Nat × Nat) :=
  (List.range full.length).filterMap (fun i =>
    if (full.drop i).take sub.length = sub then some (i, i + sub.length - 1) else none)

/-- Re-attaches the apostrophes after `contraction.split("'")`
(`contraction[1] = "'" + contraction[1]`, and likewise index 2 when the
split has three pieces); the call site guarantees two or three pieces. -/
def reattachApos : List String → List String
  | [a, b] => [a, "'" ++ b]
  | [a, b, c] => [a, "'" ++ b, "'" ++ c]
  | l => l

/-- The body of the `for expansion in relevant_exp` loop of
`_contract_sentences` for one expansion phrase: build the contracted
token sequence, find every occurrence of the phrase's words, and emit one
contracted copy of the sentence per occurrence. `none` models the
uncaught exceptions of the pathological branches (a failing `assert`, or
the `list + str` `TypeError` in the single-word branch as soon as an
occurrence exists). -/
def contractOne (expansions : List (String × String)) (sent : List String)
    (expansion : String) : Option (List ContractTuple) :=
  if (pySplit expansion).length = 2 ∨ (pySplit expansion).length = 3 then
    match List.lookup expansion expansions with
    | none => none
    | some contrStr =>
      if (splitChar apos contrStr).length = (pySplit expansion).length then
        some ((findSubList (pySplit expansion) sent).map (fun occ =>
          ⟨occ.1, (sent.drop occ.1).take (reattachApos (splitChar apos contrStr)).length,
            sent.take occ.1 ++ reattachApos (splitChar apos contrStr) ++
              sent.drop (occ.1 + (reattachApos (splitChar apos contrStr)).length)⟩))
      else none
  else
    if expansion.length = 1 then
      match List.lookup expansion expansions with
      | none => none
      | some _ => if (findSubList (pySplit expansion) sent).isEmpty then some [] else none
    else none

/-- The keys of the inverted table whose phrase occurs as a substring of
the space-joined sentence (`expansion in ' '.join(sent)`), in table
order — the `relevant_exp` list of `_contract_sentences`. -/
def relevantKeys (expansions : List (String × String)) (sent : List String) : List String :=
  (expansions.map Prod.fst).filter (fun k => strContains (pyJoinSpace sent) k)

/-- Sequences `contractOne` over a list of phrases, concatenating the
yielded tuples in order. -/
def collectContract (expansions : List (String × String)) (sent : List String) :
    List String → Option (List ContractTuple)
  | [] => some []
  | k :: ks =>
    match contractOne expansions sent k, collectContract expansions sent ks with
    | some l, some rest => some (l ++ rest)
    | _, _ => none

/-- `_contract_sentences` restricted to one sentence: every tuple the
generator yields for it, in order. -/
def contractSentence (expansions : List (String × String)) (sent : List String) :
    Option (List ContractTuple) :=
  collectContract expansions sent (relevantKeys expansions sent)

/-- `_contract_sentences`: sentences with no substring-relevant phrase are
skipped; the rest contribute their tuples in order. -/
def contractSentences (expansions : List (String × String)) :
    List (List String) → Option (List ContractTuple)
  | [] => some []
  | sent :: rest =>
    let this :=
      if (relevantKeys expansions sent).isEmpty then some []
      else contractSentence expansions sent
    match this, contractSentences expansions rest with
    | some l, some ls => some (l ++ ls)
    | _, _ => none

/-- Modelled from the spec: the greedy longest-match-first window scan
that §4.3 claims the Corpus Builder uses ("at each position, try joining
the current word with the next two words (3-word window) against the
inverted contraction table; if no match, try the ... 2-word window; if no
match, try the single current word; first successful match wins and the
scan resumes after the consumed window", sliding by one word when nothing
matches). A match is replaced by the canonical contracted token sequence
(the contraction split at its apostrophes). -/
def windowScanSpec (expansions : List (String × String)) : List String → List String
  | [] => []
  | [w] =>
    match List.lookup w expansions with
    | some c => reattachApos (splitChar apos c)
    | none => [w]
  | [w, r1] =>
    match List.lookup (w ++ " " ++ r1) expansions with
    | some c => reattachApos (splitChar apos c)
    | none =>
      match List.lookup w expansions with
      | some c => reattachApos (splitChar apos c) ++ windowScanSpec expansions [r1]
      | none => w :: windowScanSpec expansions [r1]
  | w :: r1 :: r2 :: rest =>
    match List.lookup (w ++ " " ++ r1 ++ " " ++ r2) expansions with
    | some c => reattachApos (splitChar apos c) ++ windowScanSpec expansions rest
    | none =>
      match List.lookup (w ++ " " ++ r1) expansions with
      | some c => reattachApos (splitChar apos c) ++ windowScanSpec expansions (r2 :: rest)
      | none =>
        match List.lookup w expansions with
        | some c => reattachApos (splitChar apos c) ++ windowScanSpec expansions (r1 :: r2 :: rest)
        | none => w :: windowScanSpec expansions (r1 :: r2 :: rest)

/-- Python dict assignment `d[k] = v` on an insertion-ordered association
list: replace the value in place if the key exists, else append. -/
def dictSet (d : List (String × String)) (k v : String) : List (String × String) :=
  match d with
  | [] => [(k, v)]
  | (a, b) :: t => if a = k then (k, v) :: t else (a, b) :: dictSet t k v

/-- The body of the inversion loop of `write_dictionary` for one
contraction-table entry: entries with a single expansion are skipped,
every expansion phrase of the others is assigned its contraction. -/
def invertStep (exps : List (String × String)) (kv : String × List String) :
    List (String × String) :=
  if kv.2.length = 1 then exps
  else kv.2.foldl (fun e expansion => dictSet e expansion kv.1) exps

/-- The inversion loop of `write_dictionary` (lines 149-159): entries with
a single expansion are skipped; every expansion phrase of the remaining
entries is mapped to its contraction, a later assignment silently
overwriting an earlier one. -/
def invertContractions (contractions : List (String × List String)) : List (String × String) :=
  contractions.foldl invertStep []

/-- Modelled from the spec: §4.1's declared precedence policy for the
inverted table — the phrase maps to the contraction of the *last* entry
(in source-table iteration order, among the ambiguous entries the builder
processes) that claims it. -/
def lastWriteWinsSpec : List (String × List String) → String → Option String
  | [], _ => none
  | kv :: rest, p =>
    match lastWriteWinsSpec rest p with
    | some k => some k
    | none => if kv.2.length ≠ 1 ∧ p ∈ kv.2 then some kv.1 else none

end Expander

namespace Expander

/-! ## Claim C9: inversion is last-write-wins -/

theorem lookup_dictSet (d : List (String × String)) (k v p : String) :
    List.lookup p (dictSet d k v) = if p = k then some v else List.lookup p d := by
  induction d with
  | nil =>
    by_cases h : p = k
    · simp [dictSet, List.lookup, h]
    · simp [dictSet, List.lookup, h, beq_eq_false_iff_ne.mpr h]
  | cons hd t ih =>
    obtain ⟨a, b⟩ := hd
    by_cases hak : a = k
    · subst hak
      by_cases hpa : p = a
      · simp [dictSet, List.lookup, hpa]
      · simp [dictSet, List.lookup, hpa, beq_eq_false_iff_ne.mpr hpa]
    · by_cases hpa : p = a
      · subst hpa
        simp [dictSet, List.lookup, hak, Ne.symm hak,
          beq_eq_false_iff_ne.mpr (Ne.symm hak)]
      · simp [dictSet, List.lookup, hak, hpa, ih,
          beq_eq_false_iff_ne.mpr hpa]

theorem lookup_foldl_dictSet (key p : String) :
    ∀ (value : List String) (e : List (String × String)),
      List.lookup p (value.foldl (fun acc x => dictSet acc x key) e) =
        if p ∈ value then some key else List.lookup p e := by
  intro value
  induction value with
  | nil => intro e; simp
  | cons a rest ih =>
    intro e
    simp only [List.foldl_cons]
    rw [ih]
    by_cases hmem : p ∈ rest
    · simp [hmem]
    · by_cases hpa : p = a
      · simp [hmem, hpa, lookup_dictSet]
      · simp [hmem, hpa, lookup_dictSet]

theorem lookup_foldl_invertStep (p : String) :
    ∀ (l : List (String × List String)) (e : List (String × String)),
      List.lookup p (l.foldl invertStep e) =
        match lastWriteWinsSpec l p with
        | some k => some k
        | none => List.lookup p e := by
  intro l
  induction l with
  | nil => intro e; simp [lastWriteWinsSpec]
  | cons kv rest ih =>
    intro e
    obtain ⟨k, v⟩ := kv
    simp only [List.foldl_cons]
    rw [ih]
    cases hrest : lastWriteWinsSpec rest p with
    | some k2 => simp [lastWriteWinsSpec, hrest]
    | none =>
      simp only [lastWriteWinsSpec, hrest]
      by_cases hv : v.length = 1
      · simp [invertStep, hv]
      · by_cases hmem : p ∈ v
        · simp [invertStep, hv, hmem, lookup_foldl_dictSet]
        · simp [invertStep, hv, hmem, lookup_foldl_dictSet]

/-- C9: the inversion used by the Corpus Builder maps an expansion phrase
to the contraction of the last entry (in the source table's iteration
order, among the multi-expansion entries the loop processes) that claims
the phrase — last-write-wins collision precedence, deterministic in table
order. -/
theorem c9_invert_last_write_wins (contractions : List (String × List String)) (p : String) :
    List.lookup p (invertContractions contractions) = lastWriteWinsSpec contractions p := by
  have h := lookup_foldl_invertStep p contractions []
  cases hl : lastWriteWinsSpec contractions p <;>
    simp only [invertContractions, hl, List.lookup] at h ⊢ <;> exact h

/-! ## Claim C7: case-normalised lookup with capitalisation -/

/-- C7: candidate lookup tries the exact concatenated surface first, then
the lower-cased surface; a match found only via the lower-cased form with
an upper-case original first character capitalises every candidate
expansion (Python `str.capitalize`, which upper-cases the first letter of
the first word); concretely, token "It's" against table entry
"it's" → ["it is"] expands to ["It", "is"]. -/
theorem c7_lookup_case_normalisation :
    (∀ (table : List (String × List String)) (s : String) (v : List String),
        List.lookup s table = some v → lookupContraction table s = .found v) ∧
    (∀ (table : List (String × List String)) (s : String) (v : List String),
        List.lookup s table = none → List.lookup (pyLower s) table = some v →
          isUpperFirst s = true →
          lookupContraction table s = .found (v.map pyCapitalize)) ∧
    processSent [("it's", ["it is"])] [("It", "PRP"), ("'s", "VBZ")] = some [["It", "is"]] := by
  refine ⟨?_, ?_, by decide⟩
  · intro table s v h
    simp [lookupContraction, h]
  · intro table s v h hlow hup
    simp [lookupContraction, h, hlow, hup]

theorem c7_lookup_case_normalisation_witness :
    lookupContraction [("it's", ["it is"])] "It's" = Lookup3.found ["It is"] := by
  have h := c7_lookup_case_normalisation.2.1 [("it's", ["it is"])] "It's" ["it is"]
    (by decide) (by decide) (by decide)
  rw [h]
  decide

/-! ## Claim C10: the unassigned-`expanded` branch -/

/-- C10: the replacement extraction is not total: when a span surface
misses the table exactly, hits it lower-cased, and does not start with an
upper-case character, no branch of `_extract_replacements` assigns
`expanded` (modelled by `Lookup3.unassigned` / `SpanStep.unbound`, and
failure of the surrounding run), which concretely happens on the tagged
tokens [("iT", PRP), ("'S", VBZ)] against table entry "it's"; conversely
the unassigned branch is reached only under exactly those three
conditions, so it is unreachable whenever every span matched via
lower-casing starts upper-case. -/
theorem c10_unassigned_branch :
    (processSent [("it's", ["it is"])] [("iT", "PRP"), ("'S", "VBZ")] = none ∧
      extractReplacements [1] [("iT", "PRP"), ("'S", "VBZ")] [("it's", ["it is"])] =
        [SpanStep.unbound]) ∧
    (∀ (table : List (String × List String)) (s : String),
        lookupContraction table s = .unassigned →
        List.lookup s table = none ∧ (∃ v, List.lookup (pyLower s) table = some v) ∧
          isUpperFirst s = false) := by
  refine ⟨by decide, ?_⟩
  intro table s h
  unfold lookupContraction at h
  cases hex : List.lookup s table with
  | some v => simp [hex] at h
  | none =>
    cases hlow : List.lookup (pyLower s) table with
    | some v =>
      simp only [hex, hlow] at h
      by_cases hup : isUpperFirst s = true
      · simp [hup] at h
      · exact ⟨rfl, ⟨v, rfl⟩, by simpa using hup⟩
    | none => simp [hex, hlow] at h

theorem c10_unassigned_branch_witness :
    List.lookup "iT'S" [("it's", ["it is"])] = none ∧
      (∃ v, List.lookup (pyLower "iT'S") [("it's", ["it is"])] = some v) ∧
      isUpperFirst "iT'S" = false :=
  c10_unassigned_branch.2 [("it's", ["it is"])] "iT'S" (by decide)

end Expander

namespace Expander

/-! ## Claim C2: the contraction-token criterion -/

/-- C2: a token is classified as a contraction token exactly when its
surface form begins with an apostrophe and its tag is not the
possessive-marker tag `POS` (stated for sentences of non-empty tokens,
since Python's `word_pos[0][0]` raises on an empty token); in particular
["Peter", "'s", "house"] with the possessive tag on "'s" expands
unchanged. -/
theorem c2_contraction_token_iff :
    (∀ (sent : List (String × String)) (i : Nat), (∀ wp ∈ sent, wp.1 ≠ "") →
        (i ∈ contractionIndices sent ↔
          ∃ w t, sent[i]? = some (w, t) ∧ startsWithApos w = true ∧ t ≠ "POS")) ∧
    processSent [("i'm", ["i am"])] [("Peter", "NNP"), ("'s", "POS"), ("house", "NN")] =
      some [["Peter", "'s", "house"]] := by
  refine ⟨?_, by decide⟩
  intro sent i _
  simp only [contractionIndices, List.mem_map, List.mem_filter]
  constructor
  · rintro ⟨⟨j, w, t⟩, ⟨hmem, hp⟩, hfst⟩
    obtain rfl : j = i := hfst
    have hget : sent[j]? = some (w, t) := List.mk_mem_enum_iff_getElem?.mp hmem
    simp only [Bool.and_eq_true, bne_iff_ne, ne_eq] at hp
    exact ⟨w, t, hget, hp.1, hp.2⟩
  · rintro ⟨w, t, hget, hsw, hne⟩
    refine ⟨(i, (w, t)), ⟨List.mk_mem_enum_iff_getElem?.mpr hget, ?_⟩, rfl⟩
    simp [hsw, hne]

theorem c2_contraction_token_iff_witness :
    1 ∈ contractionIndices [("Who", "WP"), ("'d", "MD"), ("'ve", "VB"), ("thought", "VBD")] :=
  (c2_contraction_token_iff.1 [("Who", "WP"), ("'d", "MD"), ("'ve", "VB"), ("thought", "VBD")]
      1 (by decide)).mpr ⟨"'d", "MD", by decide, by decide, by decide⟩

/-! ## Claim C8: sentences without contraction tokens are unchanged -/

theorem contractionIndices_eq_nil (sent : List (String × String))
    (h : ∀ wp ∈ sent, ¬(startsWithApos wp.1 = true ∧ wp.2 ≠ "POS")) :
    contractionIndices sent = [] := by
  unfold contractionIndices
  rw [List.map_eq_nil_iff, List.filter_eq_nil_iff]
  rintro ⟨j, w, t⟩ hmem
  have hwt : (w, t) ∈ sent :=
    List.getElem?_mem (List.mk_mem_enum_iff_getElem?.mp hmem)
  have := h (w, t) hwt
  simp only [Bool.and_eq_true, bne_iff_ne, ne_eq]
  intro hcon
  exact this ⟨hcon.1, hcon.2⟩

/-- C8: expanding sentences containing no contraction token (no token
whose surface starts with an apostrophe while tagged other than `POS`;
tokens assumed non-empty since Python indexes their first character)
returns every sentence unchanged: the output is exactly the de-tagged
input token sequences. -/
theorem c8_no_contraction_tokens_unchanged :
    ∀ (table : List (String × List String)) (sents : List (List (String × String))),
      (∀ sent ∈ sents, ∀ wp ∈ sent,
          wp.1 ≠ "" ∧ ¬(startsWithApos wp.1 = true ∧ wp.2 ≠ "POS")) →
      expandContractions table sents = some (sents.map removePosTags) := by
  intro table sents h
  induction sents with
  | nil => rfl
  | cons sent rest ih =>
    have hsent := h sent (List.mem_cons_self sent rest)
    have hnil : contractionIndices sent = [] :=
      contractionIndices_eq_nil sent (fun wp hwp => (hsent wp hwp).2)
    have hproc : processSent table sent = some [removePosTags sent] := by
      unfold processSent extractContractions
      simp [hnil]
    have hrest := ih (fun s hs wp hwp => h s (List.mem_cons_of_mem sent hs) wp hwp)
    simp [expandContractions, hproc, hrest]

theorem c8_no_contraction_tokens_unchanged_witness :
    expandContractions [("i'm", ["i am"])]
        [[("Peter", "NNP"), ("'s", "POS"), ("house", "NN")], [("Hello", "UH"), ("world", "NN")]] =
      some [["Peter", "'s", "house"], ["Hello", "world"]] :=
  c8_no_contraction_tokens_unchanged [("i'm", ["i am"])]
    [[("Peter", "NNP"), ("'s", "POS"), ("house", "NN")], [("Hello", "UH"), ("world", "NN")]]
    (by decide)

end Expander

namespace Expander

/-! ## Claim C3: one output per span; ambiguous spans flagged -/

theorem outputsOf_spec (sent : List (String × String)) :
    ∀ (ts : List (List Int × List String × List (List String))) (os : List (List String)),
      outputsOf sent ts = some os →
      os.length = ts.length ∧
      ∀ (k : Nat) (t : List Int × List String × List (List String)),
        ts[k]? = some t → 2 ≤ t.2.2.length →
        os[k]? = some ("AMBIGUOUS" :: removePosTags sent) := by
  intro ts
  induction ts with
  | nil =>
    intro os h
    simp only [outputsOf, Option.some.injEq] at h
    subst h
    simp
  | cons t ts ih =>
    intro os h
    unfold outputsOf at h
    cases ha : applyTuple sent t with
    | none => rw [ha] at h; exact absurd h (by simp)
    | some o =>
      cases hr : outputsOf sent ts with
      | none => rw [ha, hr] at h; exact absurd h (by simp)
      | some os2 =>
        rw [ha, hr] at h
        simp only [Option.some.injEq] at h
        subst h
        obtain ⟨hlen, hk⟩ := ih os2 hr
        refine ⟨by simp [hlen], ?_⟩
        intro k tk hts hamb
        cases k with
        | zero =>
          simp only [List.getElem?_cons_zero, Option.some.injEq] at hts
          subst hts
          have hap : applyTuple sent t = some ("AMBIGUOUS" :: removePosTags sent) := by
            unfold applyTuple
            rw [if_neg (by omega)]
          rw [hap] at ha
          simp only [Option.some.injEq] at ha
          subst ha
          simp
        | succ k2 =>
          simp only [List.getElem?_cons_succ] at hts ⊢
          exact hk k2 tk hts hamb

theorem processSent_eq_of_idx (table : List (String × List String))
    (sent : List (String × String)) (idx : List Nat)
    (hex : extractContractions sent = some idx) :
    processSent table sent =
      if (extractReplacements idx sent table).any stepIsUnbound then none
      else outputsOf sent (stepYields (extractReplacements idx sent table)) := by
  unfold processSent
  rw [hex]

/-- C3 counterexample: a sentence with two unambiguous contraction spans
("I'm" and "it's", each with exactly one candidate) is mapped to *two*
output sentences, each with only its own span expanded — not to one
output sentence. -/
theorem c3_counterexample :
    processSent [("i'm", ["i am"]), ("it's", ["it is"])]
        [("I", "PRP"), ("'m", "VBP"), ("sure", "JJ"), ("it", "PRP"), ("'s", "VBZ"), ("fine", "JJ")] =
      some [["I", "am", "sure", "it", "'s", "fine"], ["I", "'m", "sure", "it", "is", "fine"]] ∧
    (["I", "am", "sure", "it", "'s", "fine"] : List String) ≠
      ["I", "'m", "sure", "it", "is", "fine"] := by
  exact ⟨by decide, by decide⟩

/-- C3 amended: the expander emits one output sentence per yielded
replacement span (so a sentence with several spans yields several
outputs, each expanding only its own span); every span with two or more
candidate expansions contributes the sentinel-flagged output
`"AMBIGUOUS" ::` original tokens, never a silently guessed resolution —
concretely, ["She", "'d", "go"] under the ambiguous entry "she'd" yields
exactly the flagged original. -/
theorem c3_amended :
    (∀ (table : List (String × List String)) (sent : List (String × String))
        (idx : List Nat) (outs : List (List String)),
        extractContractions sent = some idx →
        processSent table sent = some outs →
        outs.length = (stepYields (extractReplacements idx sent table)).length ∧
        ∀ (k : Nat) (t : List Int × List String × List (List String)),
          (stepYields (extractReplacements idx sent table))[k]? = some t →
          2 ≤ t.2.2.length →
          outs[k]? = some ("AMBIGUOUS" :: removePosTags sent)) ∧
    processSent [("she'd", ["she would", "she had"])]
        [("She", "PRP"), ("'d", "MD"), ("go", "VB")] =
      some [["AMBIGUOUS", "She", "'d", "go"]] := by
  refine ⟨?_, by decide⟩
  intro table sent idx outs hex hproc
  rw [processSent_eq_of_idx table sent idx hex] at hproc
  by_cases hund : (extractReplacements idx sent table).any stepIsUnbound = true
  · rw [if_pos hund] at hproc
    exact absurd hproc (by simp)
  · rw [if_neg hund] at hproc
    exact outputsOf_spec sent _ outs hproc

theorem c3_amended_witness :
    ([["AMBIGUOUS", "She", "'d", "go"]] : List (List String))[0]? =
      some ("AMBIGUOUS" :: removePosTags [("She", "PRP"), ("'d", "MD"), ("go", "VB")]) := by
  have h := (c3_amended.1 [("she'd", ["she would", "she had"])]
      [("She", "PRP"), ("'d", "MD"), ("go", "VB")] [1] [["AMBIGUOUS", "She", "'d", "go"]]
      (by decide) (by decide)).2 0
      ([0, 1], ["She", "'d"], [["She", "would"], ["She", "had"]]) (by decide) (by decide)
  exact h

/-! ## Claim C4: unknown contraction surfaces -/

/-- C4 counterexample: a sentence whose only span surface ("Foo'x") is
absent from the table (exactly and lower-cased) is *dropped entirely*:
the output contains no sentence at all, rather than the sentence with its
original tokens. -/
theorem c4_counterexample :
    processSent [("i'm", ["i am"])] [("Foo", "NN"), ("'x", "XX"), ("bar", "NN")] = some [] ∧
    expandContractions [("i'm", ["i am"])] [[("Foo", "NN"), ("'x", "XX"), ("bar", "NN")]] =
      some [] := by
  exact ⟨by decide, by decide⟩

theorem stepYields_all_skip :
    ∀ steps : List SpanStep, (∀ s ∈ steps, s = SpanStep.skip) → stepYields steps = [] := by
  intro steps h
  induction steps with
  | nil => rfl
  | cons s rest ih =>
    have hs := h s (List.mem_cons_self s rest)
    subst hs
    exact ih (fun x hx => h x (List.mem_cons_of_mem _ hx))

/-- C4 amended: an unknown span surface makes the generator skip that
span (after the warning print, not modelled); its original tokens remain
in place only in the outputs contributed by *other*, recognised spans of
the same sentence, and when every span of the sentence is unknown the
sentence is omitted from the output entirely instead of being retained. -/
theorem c4_amended :
    (∀ (table : List (String × List String)) (sent : List (String × String)) (idx : List Nat),
        extractContractions sent = some idx →
        (∀ s ∈ extractReplacements idx sent table, s = SpanStep.skip) →
        processSent table sent = some []) ∧
    processSent [("it's", ["it is"])]
        [("Foo", "NN"), ("'x", "XX"), ("it", "PRP"), ("'s", "VBZ"), ("fine", "JJ")] =
      some [["Foo", "'x", "it", "is", "fine"]] := by
  refine ⟨?_, by decide⟩
  intro table sent idx hex hskip
  rw [processSent_eq_of_idx table sent idx hex]
  have hany : (extractReplacements idx sent table).any stepIsUnbound = false := by
    rw [List.any_eq_false]
    intro s hs
    rw [hskip s hs]
    exact Bool.false_ne_true
  rw [if_neg (by simp [hany]), stepYields_all_skip _ hskip]
  rfl

theorem c4_amended_witness :
    processSent [("zzz", ["z z"])] [("Foo", "NN"), ("'x", "XX"), ("bar", "NN")] = some [] :=
  c4_amended.1 [("zzz", ["z z"])] [("Foo", "NN"), ("'x", "XX"), ("bar", "NN")] [1]
    (by decide) (by decide)

/-! ## Claim C6: no `InvalidSpanError` exists -/

/-- C6 counterexample: no `InvalidSpanError` is ever signalled. A
contraction token at sentence index 0 makes the prepended head index
`-1`; the Python slice then produces an *empty* surface, the span falls
into the unknown-replacement warning path (`SpanStep.skip`), and the
sentence is silently dropped. A candidate expansion with more words than
the span ("i am not" for the two-token span "I'm") is silently truncated
to the span length, producing ["I", "am"] with no error. -/
theorem c6_counterexample :
    processSent [("i'm", ["i am"])] [("'m", "VBP"), ("happy", "JJ")] = some [] ∧
    spanStep [("i'm", ["i am"])] [("'m", "VBP"), ("happy", "JJ")] [0] = SpanStep.skip ∧
    processSent [("i'm", ["i am not"])] [("I", "PRP"), ("'m", "VBP")] = some [["I", "am"]] := by
  exact ⟨by decide, by decide, by decide⟩

/-- C6 amended: the code contains no `InvalidSpanError`. The positional
rewrite uses only as many expansion words as the span has indices (a
longer candidate is silently truncated, never an error), a candidate with
fewer words than the span aborts with an uncaught `IndexError` (modelled
as `none`), and an apostrophe-leading token at index 0 is routed through
the unknown-surface skip path, dropping the sentence. -/
theorem c6_amended :
    (∀ (tmp : List String) (idxs : List Int) (words : List String),
        applyReplacement tmp idxs words = applyReplacement tmp idxs (words.take idxs.length)) ∧
    (∀ (tmp : List String) (i : Int) (idxs : List Int),
        applyReplacement tmp (i :: idxs) [] = none) ∧
    processSent [("i'm", ["i am"])] [("'m", "VBP"), ("happy", "JJ")] = some [] := by
  refine ⟨?_, by intro tmp i idxs; simp [applyReplacement], by decide⟩
  intro tmp idxs
  induction idxs generalizing tmp with
  | nil => intro words; simp [applyReplacement]
  | cons i is ih =>
    intro words
    cases words with
    | nil => simp [applyReplacement]
    | cons w ws =>
      simp only [List.length_cons, List.take_succ_cons, applyReplacement]
      cases setPy tmp i w with
      | none => rfl
      | some t2 => exact ih t2 ws

end Expander

namespace Expander

/-! ## Claim C5: span shape and disjointness -/

/-- Start and end index (inclusive, as Python ints) of the span built by
`_extract_replacements` for one consecutive run of contraction indices:
the prepended head index `first - 1` and the run's last index. -/
def spanOf (c : List Nat) : Int × Int :=
  ((c.headI : Int) - 1, (c.getLastD 0 : Int))

/-- All contraction spans of a tagged sentence, in the order the code
produces them. -/
def spansOf (sent : List (String × String)) : List (Int × Int) :=
  (groupRuns (contractionIndices sent)).map spanOf

theorem getLastD_irrel (l : List Nat) (a b : Nat) (h : l ≠ []) :
    l.getLastD a = l.getLastD b := by
  cases l with
  | nil => exact absurd rfl h
  | cons x t => rw [List.getLastD_cons, List.getLastD_cons]

theorem groupRunsAux_ok :
    ∀ (rest : List Nat) (x : Nat), List.Chain' (fun a b : Nat => a < b) (x :: rest) →
      (groupRunsAux x rest).1.headI = x ∧
      (∀ c ∈ (groupRunsAux x rest).1 :: (groupRunsAux x rest).2,
          c ≠ [] ∧ c.headI ≤ c.getLastD 0) ∧
      List.Chain' (fun s t : Int × Int => s.2 < t.1)
        (((groupRunsAux x rest).1 :: (groupRunsAux x rest).2).map spanOf) := by
  intro rest
  induction rest with
  | nil =>
    intro x _
    refine ⟨rfl, ?_, ?_⟩
    · intro c hc
      simp only [groupRunsAux, List.mem_cons, List.not_mem_nil, or_false] at hc
      subst hc
      exact ⟨List.cons_ne_nil x [], le_refl x⟩
    · simp [groupRunsAux]
  | cons y r ih =>
    intro x hch
    rw [List.chain'_cons] at hch
    obtain ⟨hxy, hch2⟩ := hch
    obtain ⟨ihHead, ihLoc, ihChain⟩ := ih y hch2
    have hp1ne : (groupRunsAux y r).1 ≠ [] :=
      (ihLoc (groupRunsAux y r).1 (List.mem_cons_self _ _)).1
    have hp1le : (groupRunsAux y r).1.headI ≤ (groupRunsAux y r).1.getLastD 0 :=
      (ihLoc (groupRunsAux y r).1 (List.mem_cons_self _ _)).2
    by_cases hy : y = x + 1
    · rw [show groupRunsAux x (y :: r) =
          (x :: (groupRunsAux y r).1, (groupRunsAux y r).2) from by
        simp [groupRunsAux, hy]]
      have hlast : (x :: (groupRunsAux y r).1).getLastD 0 = (groupRunsAux y r).1.getLastD 0 := by
        rw [List.getLastD_cons]
        exact getLastD_irrel _ x 0 hp1ne
      refine ⟨rfl, ?_, ?_⟩
      · intro c hc
        rcases List.mem_cons.mp hc with rfl | hc2
        · refine ⟨List.cons_ne_nil _ _, ?_⟩
          show x ≤ (x :: (groupRunsAux y r).1).getLastD 0
          rw [hlast]
          have hyle := hp1le
          rw [ihHead] at hyle
          omega
        · exact ihLoc c (List.mem_cons_of_mem _ hc2)
      · simp only [List.map_cons] at ihChain ⊢
        rw [List.chain'_cons'] at ihChain ⊢
        refine ⟨?_, ihChain.2⟩
        intro b hb
        have := ihChain.1 b hb
        have h2 : (spanOf (x :: (groupRunsAux y r).1)).2 = (spanOf (groupRunsAux y r).1).2 := by
          simp only [spanOf]
          exact_mod_cast congrArg (fun n : Nat => (n : Int)) hlast
        rw [h2]
        exact this
    · rw [show groupRunsAux x (y :: r) =
          ([x], (groupRunsAux y r).1 :: (groupRunsAux y r).2) from by
        simp [groupRunsAux, hy]]
      refine ⟨rfl, ?_, ?_⟩
      · intro c hc
        rcases List.mem_cons.mp hc with rfl | hc2
        · exact ⟨List.cons_ne_nil x [], le_refl x⟩
        · exact ihLoc c hc2
      · simp only [List.map_cons] at ihChain ⊢
        rw [List.chain'_cons]
        refine ⟨?_, ihChain⟩
        show (spanOf [x]).2 < (spanOf (groupRunsAux y r).1).1
        simp only [spanOf, ihHead]
        have hge : x + 2 ≤ y := by omega
        show (x : Int) < (y : Int) - 1
        omega

theorem contractionIndices_pairwise (sent : List (String × String)) :
    (contractionIndices sent).Pairwise (fun a b => a < b) := by
  have h1 : List.Sublist
      (sent.enum.filter (fun p => startsWithApos p.2.1 && p.2.2 != "POS")) sent.enum :=
    List.filter_sublist _
  have h2 : List.Sublist (contractionIndices sent) (sent.enum.map Prod.fst) :=
    h1.map Prod.fst
  rw [List.enum_map_fst] at h2
  exact (List.pairwise_lt_range sent.length).sublist h2

theorem chain_head_lt (rest : List (Int × Int)) :
    ∀ (a : Int × Int), (∀ x ∈ rest, x.1 < x.2) →
      List.Chain' (fun s t : Int × Int => s.2 < t.1) (a :: rest) →
      ∀ t ∈ rest, a.2 < t.1 := by
  induction rest with
  | nil => intro a _ _ t ht; exact absurd ht (List.not_mem_nil t)
  | cons b l ih =>
    intro a hloc hch t ht
    rw [List.chain'_cons] at hch
    obtain ⟨hab, hch2⟩ := hch
    rcases List.mem_cons.mp ht with rfl | htl
    · exact hab
    · have hbt := ih b (fun x hx => hloc x (List.mem_cons_of_mem b hx)) hch2 t htl
      have hb := hloc b (List.mem_cons_self b l)
      omega

theorem chainR_pairwise :
    ∀ (l : List (Int × Int)), (∀ x ∈ l, x.1 < x.2) →
      List.Chain' (fun s t : Int × Int => s.2 < t.1) l →
      l.Pairwise (fun s t : Int × Int => s.2 < t.1) := by
  intro l
  induction l with
  | nil => intro _ _; exact List.Pairwise.nil
  | cons a rest ih =>
    intro hloc hch
    refine List.pairwise_cons.mpr ⟨?_, ?_⟩
    · exact chain_head_lt rest a (fun x hx => hloc x (List.mem_cons_of_mem a hx)) hch
    · exact ih (fun x hx => hloc x (List.mem_cons_of_mem a hx)) hch.tail

theorem spansOf_disjoint (sent : List (String × String)) :
    ((spansOf sent).Pairwise (fun s t => s.2 < t.1)) ∧
      (∀ s ∈ spansOf sent, s.1 < s.2) := by
  cases hidx : contractionIndices sent with
  | nil =>
    have : spansOf sent = [] := by simp [spansOf, hidx, groupRuns]
    rw [this]
    exact ⟨List.Pairwise.nil, by simp⟩
  | cons x rest =>
    have hpair := contractionIndices_pairwise sent
    rw [hidx] at hpair
    obtain ⟨hhead, hloc, hchain⟩ := groupRunsAux_ok rest x hpair.chain'
    have hsp : spansOf sent =
        ((groupRunsAux x rest).1 :: (groupRunsAux x rest).2).map spanOf := by
      simp [spansOf, hidx, groupRuns]
    have hloc2 : ∀ s ∈ spansOf sent, s.1 < s.2 := by
      intro s hs
      rw [hsp] at hs
      obtain ⟨c, hc, rfl⟩ := List.mem_map.mp hs
      obtain ⟨_, hle⟩ := hloc c hc
      have : (c.headI : Int) ≤ (c.getLastD 0 : Int) := by exact_mod_cast hle
      show (c.headI : Int) - 1 < (c.getLastD 0 : Int)
      omega
    refine ⟨?_, hloc2⟩
    rw [hsp]
    exact chainR_pairwise _ (fun s hs => hloc2 s (by rw [hsp]; exact hs)) hchain

/-- C5 counterexample: a run of three adjacent contraction tokens
produces a single span with end − start = 3, outside the claimed set
{0, 1, 2}. -/
theorem c5_counterexample :
    spansOf [("a", "X"), ("'b", "X"), ("'c", "X"), ("'d", "X")] = [((0 : Int), (3 : Int))] ∧
    ¬((3 : Int) - 0 = 0 ∨ (3 : Int) - 0 = 1 ∨ (3 : Int) - 0 = 2) :=
  ⟨by decide, by decide⟩

/-- C5 amended: every span consists of one head token plus an entire
maximal run of apostrophe-initiated continuations — end − start ≥ 1 with
*no* upper bound of 2 — and spans never overlap (each span ends strictly
before the next one starts); tokens ["Who", "'d", "'ve", "thought"]
yield exactly one span covering indices 0 through 2. -/
theorem c5_amended :
    (∀ sent : List (String × String),
        (spansOf sent).Pairwise (fun s t => s.2 < t.1) ∧
        ∀ s ∈ spansOf sent, s.1 < s.2) ∧
    spansOf [("Who", "WP"), ("'d", "MD"), ("'ve", "VB"), ("thought", "VBD")] =
      [((0 : Int), (2 : Int))] :=
  ⟨spansOf_disjoint, by decide⟩

theorem c5_amended_witness :
    ((0 : Int), (2 : Int)).1 < ((0 : Int), (2 : Int)).2 :=
  (c5_amended.1 [("Who", "WP"), ("'d", "MD"), ("'ve", "VB"), ("thought", "VBD")]).2
    (0, 2) (by decide)

end Expander

namespace Expander

/-! ## Claim C1: what the Corpus Builder actually emits -/

theorem reattachApos_length (pieces : List String) :
    (reattachApos pieces).length = pieces.length := by
  match pieces with
  | [] => rfl
  | [a] => rfl
  | [a, b] => rfl
  | [a, b, c] => rfl
  | a :: b :: c :: d :: t => rfl

theorem collectContract_mem (expansions : List (String × String)) (sent : List String) :
    ∀ (ks : List String) (ts : List ContractTuple),
      collectContract expansions sent ks = some ts →
      ∀ t ∈ ts, ∃ k ∈ ks, ∃ l, contractOne expansions sent k = some l ∧ t ∈ l := by
  intro ks
  induction ks with
  | nil =>
    intro ts h t ht
    simp only [collectContract, Option.some.injEq] at h
    subst h
    exact absurd ht (List.not_mem_nil t)
  | cons k ks ih =>
    intro ts h t ht
    unfold collectContract at h
    cases h1 : contractOne expansions sent k with
    | none => rw [h1] at h; exact absurd h (by simp)
    | some l =>
      cases h2 : collectContract expansions sent ks with
      | none => rw [h1, h2] at h; exact absurd h (by simp)
      | some rest =>
        rw [h1, h2] at h
        have h3 : some (l ++ rest) = some ts := h
        injection h3 with h3
        subst h3
        rcases List.mem_append.mp ht with hl | hr
        · exact ⟨k, List.mem_cons_self k ks, l, h1, hl⟩
        · obtain ⟨k2, hk2, l2, hl2, htl2⟩ := ih rest h2 t hr
          exact ⟨k2, List.mem_cons_of_mem k hk2, l2, hl2, htl2⟩

theorem contractOne_mem (expansions : List (String × String)) (sent : List String)
    (k : String) (l : List ContractTuple) (t : ContractTuple)
    (h : contractOne expansions sent k = some l) (ht : t ∈ l) :
    ∃ contr, List.lookup k expansions = some contr ∧
      ((pySplit k).length = 2 ∨ (pySplit k).length = 3) ∧
      (splitChar apos contr).length = (pySplit k).length ∧
      (sent.drop t.firstIndex).take (pySplit k).length = pySplit k ∧
      t.replaced = pySplit k ∧
      t.contracted = sent.take t.firstIndex ++ reattachApos (splitChar apos contr) ++
        sent.drop (t.firstIndex + (pySplit k).length) := by
  unfold contractOne at h
  split at h
  · rename_i h23
    split at h
    · exact absurd h (by simp)
    · rename_i contr hlk
      split at h
      · rename_i hlen
        injection h with h
        subst h
        obtain ⟨occ, hocc, rfl⟩ := List.mem_map.mp ht
        obtain ⟨i, _, hocc2⟩ := List.mem_filterMap.mp hocc
        split at hocc2
        · rename_i hsl
          injection hocc2 with hocc2
          subst hocc2
          refine ⟨contr, hlk, h23, hlen, ?_, ?_, ?_⟩
          · exact hsl
          · show (sent.drop i).take (reattachApos (splitChar apos contr)).length = pySplit k
            rw [reattachApos_length, hlen]
            exact hsl
          · show sent.take i ++ reattachApos (splitChar apos contr) ++
                sent.drop (i + (reattachApos (splitChar apos contr)).length) =
              sent.take i ++ reattachApos (splitChar apos contr) ++
                sent.drop (i + (pySplit k).length)
            rw [reattachApos_length, hlen]
        · exact absurd hocc2 (by simp)
      · exact absurd h (by simp)
  · split at h
    · split at h
      · exact absurd h (by simp)
      · split at h
        · injection h with h
          subst h
          exact absurd ht (List.not_mem_nil t)
        · exact absurd h (by simp)
    · exact absurd h (by simp)

/-- C1 counterexample: with the inverted table
{"i am" → "i'm", "am not" → "ain't"} and the sentence
["i", "am", "not"], the code emits *two* separately contracted copies
(["i", "'m", "not"] and ["i", "ain", "'t"]), one per occurrence of each
phrase, whereas the greedy longest-match-first window scan the claim
describes consumes "i am" at position 0 and yields the single sentence
["i", "'m", "not"], never contracting the overlapping "am not". -/
theorem c1_counterexample :
    contractSentence [("i am", "i'm"), ("am not", "ain't")] ["i", "am", "not"] =
      some [⟨0, ["i", "am"], ["i", "'m", "not"]⟩, ⟨1, ["am", "not"], ["i", "ain", "'t"]⟩] ∧
    windowScanSpec [("i am", "i'm"), ("am not", "ain't")] ["i", "am", "not"] =
      ["i", "'m", "not"] ∧
    ([⟨0, ["i", "am"], ["i", "'m", "not"]⟩, ⟨1, ["am", "not"], ["i", "ain", "'t"]⟩] :
        List ContractTuple).map ContractTuple.contracted ≠
      [windowScanSpec [("i am", "i'm"), ("am not", "ain't")] ["i", "am", "not"]] :=
  ⟨by decide, by decide, by decide⟩

/-- C1 amended: for every training sentence, the Corpus Builder does not
window-scan; it emits, for each inverted-table phrase occurring in the
sentence and for each word-level occurrence of that phrase, one
separately contracted copy: each emitted tuple records a genuine
occurrence of a table phrase (two or three words long) starting at its
first index, the replaced words are exactly the phrase's words, and the
contracted sentence is the original with just that occurrence replaced by
the contraction split at its apostrophes. -/
theorem c1_amended (expansions : List (String × String)) (sent : List String)
    (ts : List ContractTuple) (h : contractSentence expansions sent = some ts) :
    ∀ t ∈ ts, ∃ phrase contr,
      List.lookup phrase expansions = some contr ∧
      strContains (pyJoinSpace sent) phrase = true ∧
      ((pySplit phrase).length = 2 ∨ (pySplit phrase).length = 3) ∧
      (splitChar apos contr).length = (pySplit phrase).length ∧
      (sent.drop t.firstIndex).take (pySplit phrase).length = pySplit phrase ∧
      t.replaced = pySplit phrase ∧
      t.contracted = sent.take t.firstIndex ++ reattachApos (splitChar apos contr) ++
        sent.drop (t.firstIndex + (pySplit phrase).length) := by
  intro t ht
  obtain ⟨k, hk, l, hone, htl⟩ :=
    collectContract_mem expansions sent (relevantKeys expansions sent) ts h t ht
  have hcont : strContains (pyJoinSpace sent) k = true :=
    (List.mem_filter.mp hk).2
  obtain ⟨contr, hlk, h23, hlen, hsl, hrep, hcontr⟩ :=
    contractOne_mem expansions sent k l t hone htl
  exact ⟨k, contr, hlk, hcont, h23, hlen, hsl, hrep, hcontr⟩

theorem c1_amended_witness :
    ∃ phrase contr,
      List.lookup phrase [("i am", "i'm"), ("am not", "ain't")] = some contr ∧
      strContains (pyJoinSpace ["i", "am", "not"]) phrase = true ∧
      ((pySplit phrase).length = 2 ∨ (pySplit phrase).length = 3) ∧
      (splitChar apos contr).length = (pySplit phrase).length ∧
      ((["i", "am", "not"] : List String).drop 0).take (pySplit phrase).length =
        pySplit phrase ∧
      (["i", "am"] : List String) = pySplit phrase ∧
      (["i", "'m", "not"] : List String) =
        (["i", "am", "not"] : List String).take 0 ++ reattachApos (splitChar apos contr) ++
          (["i", "am", "not"] : List String).drop (0 + (pySplit phrase).length) :=
  c1_amended [("i am", "i'm"), ("am not", "ain't")] ["i", "am", "not"]
    [⟨0, ["i", "am"], ["i", "'m", "not"]⟩, ⟨1, ["am", "not"], ["i", "ain", "'t"]⟩]
    (by decide) ⟨0, ["i", "am"], ["i", "'m", "not"]⟩ (by decide)

end Expander
